import Mathlib

/-!
# Verification of the UTT (Ultimate Tic-Tac-Toe) string parser

Shallow embedding of `src/state.rs`: a chumsky-combinator parser for UTT
position strings.  Each Rust combinator expression is translated into an
explicit Lean function over the remaining input (`List Char`) together with
the absolute character position (`Nat`), so that spans can be reported the
way the Rust wrapper reports them.

Conventions of the embedding:
* a parser returns `PR α`: success (value, new position, remaining input),
  a single propagated rich error (chumsky's error channel), or `panicked`,
  which models a Rust run-time panic (the source calls `.unwrap()` on the
  result of `Move::new` inside a `map` closure, and on the `try_into` of the
  flattened square list);
* chumsky's automatic backtracking is reflected directly: `or_not` turns an
  inner failure into `none` at the original position, greedy `repeated`
  stops at the first failing iteration and rewinds it;
* the greedy repetition is written with explicit fuel (`runRepeated`); the
  caller passes the length of the remaining input, which is an upper bound
  on the number of iterations since every successful `run` consumes at
  least one character;
* machine integers (`u8`, `usize`, `u32` code points) are modelled as `Nat`;
  the `u8` casts in the source never truncate on parser-produced values;
* the text of chumsky's *generic* error messages (`Rich::to_string` for
  found/expected errors) is abstracted by `reasonToString`; the *custom*
  message built by the source with `format!` is reproduced verbatim.
-/

namespace UTT

/-- `Square`: one cell of a board (`src/state.rs`, enum `Square`). -/
inductive Square where
  | Empty : Square
  | X : Square
  | O : Square
deriving DecidableEq, Repr

/-- `Move`: a (row, column) pair (`src/state.rs`, struct `Move`). -/
structure Move where
  row : Nat
  column : Nat
deriving DecidableEq, Repr

/-- `MoveErr` (`src/state.rs`). -/
inductive MoveErr where
  | InvalidRow : MoveErr
  | InvalidColumn : MoveErr
deriving DecidableEq, Repr

/-- `Move::new`: checks `(0..=8).contains(&row)` then `(0..=8).contains(&col)`.
`u8` arguments are modelled as `Nat` (the lower bound `0 ≤ _` is vacuous). -/
def Move.new (row col : Nat) : Except MoveErr Move :=
  if ¬ row ≤ 8 then .error .InvalidRow
  else if ¬ col ≤ 8 then .error .InvalidColumn
  else .ok ⟨row, col⟩

/-- `Move::row` accessor. -/
def Move.rowAcc (m : Move) : Nat := m.row

/-- `Move::col` accessor. -/
def Move.col (m : Move) : Nat := m.column

/-- `State` (`src/state.rs`).  The fixed-size array `[Square; 81]` is
modelled as a `List Square`; the `try_into().unwrap()` length check is kept
explicitly in `_parse`. -/
structure State where
  active : Nat
  squares : List Square
  last_move : Option Move
deriving DecidableEq, Repr

/-- chumsky `SimpleSpan`: `start..stop` with exclusive `stop`. -/
structure Span where
  start : Nat
  stop : Nat
deriving DecidableEq, Repr

/-- The reason of a chumsky `Rich` error: either a custom message
(`Rich::custom`, used by the board-size check) or a generic found/expected
error produced by primitive token parsers and `end()`. -/
inductive Reason where
  | custom : String → Reason
  | expectedFound : Option Char → Reason
deriving DecidableEq, Repr

/-- A chumsky `Rich` error: a span plus a reason. -/
structure RichErr where
  span : Span
  reason : Reason
deriving DecidableEq, Repr

/-- `e.into_reason().to_string()` of the Rust wrapper.  Custom messages are
rendered verbatim; the exact text chumsky produces for generic
found/expected errors is abstracted by a fixed deterministic rendering
(no claim inspects it). -/
def reasonToString : Reason → String
  | .custom m => m
  | .expectedFound (some c) => "found " ++ toString c
  | .expectedFound none => "found end of input"

/-- Result of one embedded parser: success with value, new absolute
position and remaining input; a propagated rich error; or a Rust panic. -/
inductive PR (α : Type) where
  | ok : α → Nat → List Char → PR α
  | err : RichErr → PR α
  | panicked : PR α
deriving DecidableEq, Repr

/-- `one_of('0'..='9')` membership: code points 48–57. -/
def isDigitChar (c : Char) : Bool := 48 ≤ c.toNat && c.toNat ≤ 57

/-- `c.to_digit(10).unwrap()` for a character matched by `one_of('0'..='9')`. -/
def digitVal (c : Char) : Nat := c.toNat - 48

/-- `one_of('a'..='i')` membership: code points 97–105. -/
def isFileChar (c : Char) : Bool := 97 ≤ c.toNat && c.toNat ≤ 105

/-- `c as u32 - b'a' as u32`, the 0-based value of a file letter. -/
def fileVal (c : Char) : Nat := c.toNat - 97

/-- The `digit` parser: `one_of('0'..='9').map(to_digit)`. -/
def digit : List Char → Nat → PR Nat
  | [], pos => .err ⟨⟨pos, pos⟩, .expectedFound none⟩
  | c :: rest, pos =>
    if isDigitChar c then .ok (digitVal c) (pos + 1) rest
    else .err ⟨⟨pos, pos + 1⟩, .expectedFound (some c)⟩

/-- The `slash` parser: `just('/')`. -/
def slash : List Char → Nat → PR Unit
  | [], pos => .err ⟨⟨pos, pos⟩, .expectedFound none⟩
  | c :: rest, pos =>
    if c = '/' then .ok () (pos + 1) rest
    else .err ⟨⟨pos, pos + 1⟩, .expectedFound (some c)⟩

/-- Which square a cell symbol denotes, if any: the `choice` of
`just('X')`, `just('O')`, `just('_')`. -/
def cellOf (c : Char) : Option Square :=
  if c = 'X' then some .X
  else if c = 'O' then some .O
  else if c = '_' then some .Empty
  else none

/-- The `cell` parser. -/
def cell : List Char → Nat → PR Square
  | [], pos => .err ⟨⟨pos, pos⟩, .expectedFound none⟩
  | c :: rest, pos =>
    match cellOf c with
    | some sq => .ok sq (pos + 1) rest
    | none => .err ⟨⟨pos, pos + 1⟩, .expectedFound (some c)⟩

/-- The `run` parser: `choice((cell.map(|c| vec![c]), digit.then(cell).map(
|(run_len, cell)| vec![cell; run_len])))`.  chumsky tries the bare-cell
alternative first and backtracks to the run-length alternative. -/
def run (xs : List Char) (pos : Nat) : PR (List Square) :=
  match cell xs pos with
  | .ok sq p r => .ok [sq] p r
  | _ =>
    match digit xs pos with
    | .ok n p r =>
      match cell r p with
      | .ok sq p2 r2 => .ok (List.replicate n sq) p2 r2
      | .err e => .err e
      | .panicked => .panicked
    | .err e => .err e
    | .panicked => .panicked

/-- `run.repeated()` (greedy, zero or more, rewinding the failed final
attempt).  `fuel` bounds the number of iterations; callers pass the length
of the remaining input, sufficient because each successful `run` consumes
at least one character. -/
def runRepeated : Nat → List Char → Nat → List (List Square) × Nat × List Char
  | 0, xs, pos => ([], pos, xs)
  | fuel + 1, xs, pos =>
    match run xs pos with
    | .ok sq p r =>
      match runRepeated fuel r p with
      | (acc, p2, r2) => (sq :: acc, p2, r2)
    | _ => ([], pos, xs)

/-- The `row` parser: `run.repeated().at_least(1).collect().try_map(...)`.
The collected runs are flattened; a total other than 9 cells becomes a
`Rich::custom` error spanning the consumed region. -/
def row (xs : List Char) (pos : Nat) : PR (List Square) :=
  match run xs pos with
  | .err e => .err e
  | .panicked => .panicked
  | .ok first p r =>
    match runRepeated r.length r p with
    | (rest, p2, r2) =>
      let cells := (first :: rest).flatten
      if cells.length ≠ 9 then
        .err ⟨⟨pos, p2⟩,
          .custom ("Board must have exactly 9 squares, got: " ++ toString cells.length)⟩
      else .ok cells p2 r2

/-- The `active_brd` parser: `digit.then_ignore(slash)`. -/
def active_brd (xs : List Char) (pos : Nat) : PR Nat :=
  match digit xs pos with
  | .ok a p r =>
    match slash r p with
    | .ok _ p2 r2 => .ok a p2 r2
    | .err e => .err e
    | .panicked => .panicked
  | .err e => .err e
  | .panicked => .panicked

/-- The trailing `(slash then row)` repetition of
`row.separated_by(slash).exactly(9)`: `n` further separator/row pairs. -/
def boardsSep : Nat → List Char → Nat → PR (List (List Square))
  | 0, xs, pos => .ok [] pos xs
  | n + 1, xs, pos =>
    match slash xs pos with
    | .ok _ p r =>
      match row r p with
      | .ok b p2 r2 =>
        match boardsSep n r2 p2 with
        | .ok bs p3 r3 => .ok (b :: bs) p3 r3
        | .err e => .err e
        | .panicked => .panicked
      | .err e => .err e
      | .panicked => .panicked
    | .err e => .err e
    | .panicked => .panicked

/-- The `boards` parser: `row.separated_by(slash).exactly(9).collect()`. -/
def boards (xs : List Char) (pos : Nat) : PR (List (List Square)) :=
  match row xs pos with
  | .ok b p r =>
    match boardsSep 8 r p with
    | .ok bs p2 r2 => .ok (b :: bs) p2 r2
    | .err e => .err e
    | .panicked => .panicked
  | .err e => .err e
  | .panicked => .panicked

/-- The `last_move` parser:
`slash.or_not().ignore_then(one_of('a'..='i').map(file)).then(digit)
.map(|(board, index)| Move::new(board as u8, index as u8).unwrap()).or_not()`.
The `.unwrap()` panics when `Move::new` returns `Err`; the outer `or_not`
rewinds a failed inner parse to the original position. -/
def last_move (xs : List Char) (pos : Nat) : PR (Option Move) :=
  let afterSlash : Nat × List Char :=
    match slash xs pos with
    | .ok _ p r => (p, r)
    | _ => (pos, xs)
  match afterSlash with
  | (p1, r1) =>
    match r1 with
    | [] => .ok none pos xs
    | c :: r2 =>
      if isFileChar c then
        match digit r2 (p1 + 1) with
        | .ok idx p3 r3 =>
          match Move.new (fileVal c) idx with
          | .ok mv => .ok (some mv) p3 r3
          | .error _ => .panicked
        | _ => .ok none pos xs
      else .ok none pos xs

/-- The whole `_parse` combinator:
`active_brd.then(boards).then(last_move).then_ignore(end()).map(...)`.
The final `map` flattens the boards and performs `try_into().unwrap()`
into `[Square; 81]`, modelled as an explicit length check that panics on
failure. -/
def _parse (xs : List Char) : PR State :=
  match active_brd xs 0 with
  | .ok a p r =>
    match boards r p with
    | .ok bs p2 r2 =>
      match last_move r2 p2 with
      | .ok lm p3 r3 =>
        match r3 with
        | [] =>
          let sq := bs.flatten
          if sq.length = 81 then .ok ⟨a, sq, lm⟩ p3 []
          else .panicked
        | c :: _ => .err ⟨⟨p3, p3 + 1⟩, .expectedFound (some c)⟩
      | .err e => .err e
      | .panicked => .panicked
    | .err e => .err e
    | .panicked => .panicked
  | .err e => .err e
  | .panicked => .panicked

/-- Outcome of the public `parse` wrapper: a `State`, a non-empty list of
`(inclusive span, message)` diagnostics, or a run-time panic. -/
inductive ParseOutcome where
  | ok : State → ParseOutcome
  | err : List ((Nat × Nat) × String) → ParseOutcome
  | panicked : ParseOutcome
deriving DecidableEq, Repr

/-- The public `parse` wrapper: converts each rich error to
`(sp.start..=sp.end, reason.to_string())` — note the wrapper reuses the
exclusive `end` of the chumsky span as an inclusive bound. -/
def parse (xs : List Char) : ParseOutcome :=
  match _parse xs with
  | .ok st _ _ => .ok st
  | .err e => .err [((e.span.start, e.span.stop), reasonToString e.reason)]
  | .panicked => .panicked

/-- `parse` returned `Err` with a non-empty diagnostics list. -/
def isFailure : ParseOutcome → Bool
  | .err ds => !ds.isEmpty
  | _ => false

/-! ## Character-class facts -/

theorem digitVal_le_nine {c : Char} (h : isDigitChar c = true) : digitVal c ≤ 9 := by
  simp only [isDigitChar, Bool.and_eq_true, decide_eq_true_eq] at h
  simp only [digitVal]
  omega

theorem cellOf_eq_none_of_digit {c : Char} (h : isDigitChar c = true) : cellOf c = none := by
  simp only [isDigitChar, Bool.and_eq_true, decide_eq_true_eq] at h
  unfold cellOf
  split_ifs with h1 h2 h3
  · subst h1; exact absurd h (by decide)
  · subst h2; exact absurd h (by decide)
  · subst h3; exact absurd h (by decide)
  · rfl

theorem cellOf_eq_none_of_file {c : Char} (h : isFileChar c = true) : cellOf c = none := by
  simp only [isFileChar, Bool.and_eq_true, decide_eq_true_eq] at h
  unfold cellOf
  split_ifs with h1 h2 h3
  · subst h1; exact absurd h (by decide)
  · subst h2; exact absurd h (by decide)
  · subst h3; exact absurd h (by decide)
  · rfl

theorem not_digit_of_file {c : Char} (h : isFileChar c = true) : isDigitChar c = false := by
  simp only [isFileChar, Bool.and_eq_true, decide_eq_true_eq] at h
  simp only [isDigitChar, Bool.and_eq_false_iff, decide_eq_false_iff_not]
  omega

theorem ne_slash_of_file {c : Char} (h : isFileChar c = true) : c ≠ '/' := by
  simp only [isFileChar, Bool.and_eq_true, decide_eq_true_eq] at h
  intro hc
  subst hc
  exact absurd h (by decide)

/-! ## `Move.new` -/

theorem Move.new_ok_inv {r c : Nat} {m : Move} (h : Move.new r c = .ok m) :
    m = ⟨r, c⟩ ∧ r ≤ 8 ∧ c ≤ 8 := by
  unfold Move.new at h
  split_ifs at h with h1 h2
  injection h with h3
  exact ⟨h3.symm, h1, h2⟩

theorem Move.new_ok_of_le {r c : Nat} (hr : r ≤ 8) (hc : c ≤ 8) :
    Move.new r c = .ok ⟨r, c⟩ := by
  unfold Move.new
  rw [if_neg (by omega), if_neg (by omega)]

/-! ## Primitive parsers -/

theorem digit_ok_inv {xs : List Char} {pos p n : Nat} {r : List Char}
    (h : digit xs pos = .ok n p r) :
    ∃ c, xs = c :: r ∧ isDigitChar c = true ∧ n = digitVal c ∧ p = pos + 1 := by
  cases xs with
  | nil => cases h
  | cons c rest =>
    simp only [digit] at h
    by_cases hc : isDigitChar c = true
    · rw [if_pos hc] at h
      injection h with h1 h2 h3
      exact ⟨c, by rw [h3], hc, h1.symm, h2.symm⟩
    · rw [if_neg hc] at h
      cases h

theorem slash_ok_inv {xs : List Char} {pos p : Nat} {u : Unit} {r : List Char}
    (h : slash xs pos = .ok u p r) : xs = '/' :: r ∧ p = pos + 1 := by
  cases xs with
  | nil => cases h
  | cons c rest =>
    simp only [slash] at h
    by_cases hc : c = '/'
    · rw [if_pos hc] at h
      injection h with h1 h2 h3
      exact ⟨by rw [hc, h3], h2.symm⟩
    · rw [if_neg hc] at h
      cases h

theorem cell_ok_inv {xs : List Char} {pos p : Nat} {sq : Square} {r : List Char}
    (h : cell xs pos = .ok sq p r) :
    ∃ c, xs = c :: r ∧ cellOf c = some sq ∧ p = pos + 1 := by
  cases xs with
  | nil => cases h
  | cons c rest =>
    simp only [cell] at h
    cases hc : cellOf c with
    | some sq' =>
      rw [hc] at h
      injection h with h1 h2 h3
      exact ⟨c, by rw [h3], by rw [hc, h1], h2.symm⟩
    | none => rw [hc] at h; cases h

/-! ## The `run` parser -/

theorem run_bare {c : Char} {sq : Square} (rest : List Char) (pos : Nat)
    (hc : cellOf c = some sq) : run (c :: rest) pos = .ok [sq] (pos + 1) rest := by
  simp only [run, cell, hc]

theorem run_replicate {d c : Char} {sq : Square} (rest : List Char) (pos : Nat)
    (hd : isDigitChar d = true) (hc : cellOf c = some sq) :
    run (d :: c :: rest) pos = .ok (List.replicate (digitVal d) sq) (pos + 2) rest := by
  simp only [run, cell, digit, cellOf_eq_none_of_digit hd, hd, if_pos, hc]

theorem run_err_head {c : Char} (t : List Char) (pos : Nat)
    (hc : cellOf c = none) (hd : isDigitChar c = false) :
    run (c :: t) pos = .err ⟨⟨pos, pos + 1⟩, .expectedFound (some c)⟩ := by
  simp only [run, cell, digit, hc, hd, Bool.false_eq_true, if_false]

theorem run_ok_inv {xs : List Char} {pos p : Nat} {v : List Square} {r : List Char}
    (h : run xs pos = .ok v p r) :
    (∃ c sq, xs = c :: r ∧ cellOf c = some sq ∧ v = [sq] ∧ p = pos + 1) ∨
    (∃ d c sq, xs = d :: c :: r ∧ isDigitChar d = true ∧ cellOf c = some sq ∧
      v = List.replicate (digitVal d) sq ∧ p = pos + 2) := by
  unfold run at h
  cases h1 : cell xs pos with
  | ok sq p1 r1 =>
    simp only [h1] at h
    injection h with hv hp hr
    obtain ⟨c, hxs, hc, hp1⟩ := cell_ok_inv h1
    exact .inl ⟨c, sq, by rw [hxs, hr], hc, hv.symm, by omega⟩
  | err e =>
    simp only [h1] at h
    cases h2 : digit xs pos with
    | ok n p1 r1 =>
      simp only [h2] at h
      cases h3 : cell r1 p1 with
      | ok sq p2 r2 =>
        simp only [h3] at h
        injection h with hv hp hr
        obtain ⟨d, hxs, hd, hn, hp1⟩ := digit_ok_inv h2
        obtain ⟨c, hr1, hc, hp2⟩ := cell_ok_inv h3
        refine .inr ⟨d, c, sq, ?_, hd, hc, by rw [← hv, hn], by omega⟩
        rw [hxs, hr1, hr]
      | err e2 => simp only [h3] at h; cases h
      | panicked => simp only [h3] at h; cases h
    | err e2 => simp only [h2] at h; cases h
    | panicked => simp only [h2] at h; cases h
  | panicked =>
    simp only [h1] at h
    cases h2 : digit xs pos with
    | ok n p1 r1 =>
      simp only [h2] at h
      cases h3 : cell r1 p1 with
      | ok sq p2 r2 =>
        simp only [h3] at h
        injection h with hv hp hr
        obtain ⟨d, hxs, hd, hn, hp1⟩ := digit_ok_inv h2
        obtain ⟨c, hr1, hc, hp2⟩ := cell_ok_inv h3
        refine .inr ⟨d, c, sq, ?_, hd, hc, by rw [← hv, hn], by omega⟩
        rw [hxs, hr1, hr]
      | err e2 => simp only [h3] at h; cases h
      | panicked => simp only [h3] at h; cases h
    | err e2 => simp only [h2] at h; cases h
    | panicked => simp only [h2] at h; cases h

theorem run_consumes {xs : List Char} {pos p : Nat} {v : List Square} {r : List Char}
    (h : run xs pos = .ok v p r) : r.length < xs.length := by
  rcases run_ok_inv h with ⟨c, sq, hxs, _⟩ | ⟨d, c, sq, hxs, _⟩ <;>
    rw [hxs] <;> simp only [List.length_cons] <;> omega

theorem run_suffix {xs : List Char} {pos p : Nat} {v : List Square} {r : List Char}
    (h : run xs pos = .ok v p r) : ∃ pre, xs = pre ++ r := by
  rcases run_ok_inv h with ⟨c, sq, hxs, _⟩ | ⟨d, c, sq, hxs, _⟩
  · exact ⟨[c], hxs⟩
  · exact ⟨[d, c], hxs⟩

theorem run_ok_ext {xs : List Char} {pos p : Nat} {v : List Square} {r : List Char}
    (s : List Char) (h : run xs pos = .ok v p r) :
    run (xs ++ s) pos = .ok v p (r ++ s) := by
  rcases run_ok_inv h with ⟨c, sq, hxs, hc, hv, hp⟩ | ⟨d, c, sq, hxs, hd, hc, hv, hp⟩
  · rw [hxs, hv, hp]
    exact run_bare (r ++ s) pos hc
  · rw [hxs, hv, hp]
    exact run_replicate (r ++ s) pos hd hc

/-! ## `run.repeated()` -/

theorem runRepeated_fuel {f1 f2 : Nat} {xs : List Char} {pos : Nat}
    (h1 : xs.length ≤ f1) (h2 : xs.length ≤ f2) :
    runRepeated f1 xs pos = runRepeated f2 xs pos := by
  induction f1 generalizing f2 xs pos with
  | zero =>
    have hx : xs = [] := List.length_eq_zero.mp (by omega)
    subst hx
    cases f2 with
    | zero => rfl
    | succ g => simp [runRepeated, run, cell, digit]
  | succ f ih =>
    cases f2 with
    | zero =>
      have hx : xs = [] := List.length_eq_zero.mp (by omega)
      subst hx
      simp [runRepeated, run, cell, digit]
    | succ g =>
      cases hr : run xs pos with
      | ok v p r =>
        have hlt := run_consumes hr
        simp only [runRepeated, hr]
        rw [@ih g r p (by omega) (by omega)]
      | err e => simp only [runRepeated, hr]
      | panicked => simp only [runRepeated, hr]

theorem runRepeated_suffix {fuel : Nat} {xs : List Char} {pos : Nat}
    {acc : List (List Square)} {p2 : Nat} {r2 : List Char}
    (h : runRepeated fuel xs pos = (acc, p2, r2)) : ∃ pre, xs = pre ++ r2 := by
  induction fuel generalizing xs pos acc with
  | zero =>
    simp only [runRepeated, Prod.mk.injEq] at h
    exact ⟨[], h.2.2⟩
  | succ f ih =>
    cases hr : run xs pos with
    | ok v p r =>
      simp only [runRepeated, hr] at h
      rcases hq : runRepeated f r p with ⟨acc0, p0, r0⟩
      rw [hq] at h
      simp only [Prod.mk.injEq] at h
      obtain ⟨h1, h2, h3⟩ := h
      rw [h2, h3] at hq
      obtain ⟨pre1, hpre1⟩ := run_suffix hr
      obtain ⟨pre2, hpre2⟩ := ih hq
      exact ⟨pre1 ++ pre2, by rw [hpre1, hpre2]; simp⟩
    | err e =>
      simp only [runRepeated, hr, Prod.mk.injEq] at h
      exact ⟨[], h.2.2⟩
    | panicked =>
      simp only [runRepeated, hr, Prod.mk.injEq] at h
      exact ⟨[], h.2.2⟩

theorem runRepeated_ext {fuel : Nat} {xs : List Char} {pos : Nat}
    {acc : List (List Square)} {p2 : Nat} {c : Char} {t : List Char}
    (f2 : Nat) (s : List Char)
    (h : runRepeated fuel xs pos = (acc, p2, c :: t))
    (hc : cellOf c = none) (hd : isDigitChar c = false)
    (hf : xs.length ≤ fuel) (hf2 : (xs ++ s).length ≤ f2) :
    runRepeated f2 (xs ++ s) pos = (acc, p2, (c :: t) ++ s) := by
  induction fuel generalizing xs pos acc f2 with
  | zero =>
    have hx : xs = [] := List.length_eq_zero.mp (by omega)
    subst hx
    simp only [runRepeated, Prod.mk.injEq] at h
    cases h.2.2
  | succ f ih =>
    cases hr : run xs pos with
    | ok v p r =>
      simp only [runRepeated, hr] at h
      rcases hq : runRepeated f r p with ⟨acc0, p0, r0⟩
      rw [hq] at h
      simp only [Prod.mk.injEq] at h
      obtain ⟨h1, h2, h3⟩ := h
      rw [h2, h3] at hq
      have hlt := run_consumes hr
      have hs1 : 1 ≤ (xs ++ s).length := by
        simp only [List.length_append]
        omega
      cases f2 with
      | zero => omega
      | succ g =>
        simp only [runRepeated, run_ok_ext s hr]
        rw [ih g hq (by omega) (by simp only [List.length_append] at hf2 ⊢; omega)]
        rw [h1]
    | err e =>
      simp only [runRepeated, hr, Prod.mk.injEq] at h
      obtain ⟨h1, h2, h3⟩ := h
      subst h3
      have hs1 : 1 ≤ ((c :: t) ++ s).length := by
        simp only [List.length_append, List.length_cons]
        omega
      cases f2 with
      | zero => omega
      | succ g =>
        simp only [List.cons_append, runRepeated, run_err_head (t ++ s) pos hc hd]
        rw [h1, h2]
    | panicked =>
      simp only [runRepeated, hr, Prod.mk.injEq] at h
      obtain ⟨h1, h2, h3⟩ := h
      subst h3
      have hs1 : 1 ≤ ((c :: t) ++ s).length := by
        simp only [List.length_append, List.length_cons]
        omega
      cases f2 with
      | zero => omega
      | succ g =>
        simp only [List.cons_append, runRepeated, run_err_head (t ++ s) pos hc hd]
        rw [h1, h2]


/-! ## The `row` parser -/

theorem row_ok_inv {xs : List Char} {pos p : Nat} {cells : List Square} {r : List Char}
    (h : row xs pos = .ok cells p r) :
    ∃ first p1 r1 rest, run xs pos = .ok first p1 r1 ∧
      runRepeated r1.length r1 p1 = (rest, p, r) ∧
      cells = (first :: rest).flatten ∧ cells.length = 9 := by
  unfold row at h
  cases hr : run xs pos with
  | ok first p1 r1 =>
    simp only [hr] at h
    rcases hq : runRepeated r1.length r1 p1 with ⟨rest, p2, r2⟩
    rw [hq] at h
    simp only at h
    split_ifs at h with hlen
    injection h with h1 h2 h3
    refine ⟨first, p1, r1, rest, rfl, ?_, h1.symm, ?_⟩
    · rw [hq, h2, h3]
    · rw [← h1]
      omega
  | err e => simp only [hr] at h; cases h
  | panicked => simp only [hr] at h; cases h

theorem row_ok_length {xs : List Char} {pos p : Nat} {cells : List Square} {r : List Char}
    (h : row xs pos = .ok cells p r) : cells.length = 9 := by
  obtain ⟨_, _, _, _, _, _, _, hlen⟩ := row_ok_inv h
  exact hlen

theorem row_count_err {xs : List Char} {pos p1 : Nat} {first : List Square}
    {r1 : List Char} {rest : List (List Square)} {p2 : Nat} {r2 : List Char}
    (h1 : run xs pos = .ok first p1 r1)
    (h2 : runRepeated r1.length r1 p1 = (rest, p2, r2))
    (h3 : ((first :: rest).flatten).length ≠ 9) :
    row xs pos = .err ⟨⟨pos, p2⟩,
      .custom ("Board must have exactly 9 squares, got: " ++
        toString ((first :: rest).flatten).length)⟩ := by
  unfold row
  simp only [h1, h2]
  rw [if_pos h3]

theorem row_suffix {xs : List Char} {pos p : Nat} {cells : List Square} {r : List Char}
    (h : row xs pos = .ok cells p r) : ∃ pre, xs = pre ++ r := by
  obtain ⟨first, p1, r1, rest, hr, hq, _, _⟩ := row_ok_inv h
  obtain ⟨pre1, hpre1⟩ := run_suffix hr
  obtain ⟨pre2, hpre2⟩ := runRepeated_suffix hq
  exact ⟨pre1 ++ pre2, by rw [hpre1, hpre2]; simp⟩

theorem row_ext {xs : List Char} {pos p : Nat} {cells : List Square} {c : Char}
    {t : List Char} (s : List Char)
    (h : row xs pos = .ok cells p (c :: t))
    (hc : cellOf c = none) (hd : isDigitChar c = false) :
    row (xs ++ s) pos = .ok cells p ((c :: t) ++ s) := by
  obtain ⟨first, p1, r1, rest, hr, hq, hcells, hlen⟩ := row_ok_inv h
  unfold row
  simp only [run_ok_ext s hr]
  rw [runRepeated_ext (r1 ++ s).length s hq hc hd (le_refl _) (le_refl _)]
  simp only [← hcells]
  rw [if_neg (by omega)]

/-! ## The `boards` parser -/

theorem flatten_length_81 {bs : List (List Square)} (h9 : bs.length = 9)
    (hall : ∀ b ∈ bs, b.length = 9) : bs.flatten.length = 81 := by
  rw [List.length_flatten]
  have hm : bs.map List.length = List.replicate 9 9 := by
    rw [List.eq_replicate_iff]
    constructor
    · rw [List.length_map, h9]
    · intro x hx
      obtain ⟨b, hb, hxb⟩ := List.mem_map.mp hx
      rw [← hxb]
      exact hall b hb
  rw [hm]
  decide

theorem boardsSep_ok_inv {n : Nat} {xs : List Char} {pos p : Nat}
    {bs : List (List Square)} {r : List Char}
    (h : boardsSep n xs pos = .ok bs p r) :
    bs.length = n ∧ ∀ b ∈ bs, b.length = 9 := by
  induction n generalizing xs pos bs p r with
  | zero =>
    simp only [boardsSep] at h
    injection h with h1 h2 h3
    rw [← h1]
    exact ⟨rfl, by intro b hb; cases hb⟩
  | succ m ih =>
    cases hs : slash xs pos with
    | ok u p1 r1 =>
      simp only [boardsSep, hs] at h
      cases hrow : row r1 p1 with
      | ok b p2 r2 =>
        simp only [hrow] at h
        cases hrec : boardsSep m r2 p2 with
        | ok bs2 p3 r3 =>
          simp only [hrec] at h
          injection h with h1 h2 h3
          obtain ⟨hlen, hall⟩ := ih hrec
          rw [← h1]
          refine ⟨by simp [hlen], ?_⟩
          intro b2 hb2
          rcases List.mem_cons.mp hb2 with hb2 | hb2
          · rw [hb2]
            exact row_ok_length hrow
          · exact hall b2 hb2
        | err e => simp only [hrec] at h; cases h
        | panicked => simp only [hrec] at h; cases h
      | err e => simp only [hrow] at h; cases h
      | panicked => simp only [hrow] at h; cases h
    | err e => simp only [boardsSep, hs] at h; cases h
    | panicked => simp only [boardsSep, hs] at h; cases h

theorem boardsSep_suffix {n : Nat} {xs : List Char} {pos p : Nat}
    {bs : List (List Square)} {r : List Char}
    (h : boardsSep n xs pos = .ok bs p r) : ∃ pre, xs = pre ++ r := by
  induction n generalizing xs pos bs p r with
  | zero =>
    simp only [boardsSep] at h
    injection h with h1 h2 h3
    exact ⟨[], h3⟩
  | succ m ih =>
    cases hs : slash xs pos with
    | ok u p1 r1 =>
      simp only [boardsSep, hs] at h
      cases hrow : row r1 p1 with
      | ok b p2 r2 =>
        simp only [hrow] at h
        cases hrec : boardsSep m r2 p2 with
        | ok bs2 p3 r3 =>
          simp only [hrec] at h
          injection h with h1 h2 h3
          obtain ⟨hxs, _⟩ := slash_ok_inv hs
          obtain ⟨pre2, hpre2⟩ := row_suffix hrow
          obtain ⟨pre3, hpre3⟩ := ih hrec
          refine ⟨'/' :: (pre2 ++ pre3), ?_⟩
          rw [hxs, hpre2, hpre3, h3]
          simp
        | err e => simp only [hrec] at h; cases h
        | panicked => simp only [hrec] at h; cases h
      | err e => simp only [hrow] at h; cases h
      | panicked => simp only [hrow] at h; cases h
    | err e => simp only [boardsSep, hs] at h; cases h
    | panicked => simp only [boardsSep, hs] at h; cases h

theorem boardsSep_head {m : Nat} {xs : List Char} {pos p : Nat}
    {bs : List (List Square)} {r : List Char}
    (h : boardsSep (m + 1) xs pos = .ok bs p r) : ∃ t, xs = '/' :: t := by
  cases hs : slash xs pos with
  | ok u p1 r1 =>
    obtain ⟨hxs, _⟩ := slash_ok_inv hs
    exact ⟨r1, hxs⟩
  | err e => simp only [boardsSep, hs] at h; cases h
  | panicked => simp only [boardsSep, hs] at h; cases h

theorem boardsSep_ext {n : Nat} {xs : List Char} {pos p : Nat}
    {bs : List (List Square)} {c : Char} {t : List Char} (s : List Char)
    (h : boardsSep n xs pos = .ok bs p (c :: t))
    (hc : cellOf c = none) (hd : isDigitChar c = false) :
    boardsSep n (xs ++ s) pos = .ok bs p ((c :: t) ++ s) := by
  induction n generalizing xs pos bs p with
  | zero =>
    simp only [boardsSep] at h ⊢
    injection h with h1 h2 h3
    rw [h1, h2, h3]
  | succ m ih =>
    cases hs : slash xs pos with
    | ok u p1 r1 =>
      simp only [boardsSep, hs] at h
      cases hrow : row r1 p1 with
      | ok b p2 r2 =>
        simp only [hrow] at h
        cases hrec : boardsSep m r2 p2 with
        | ok bs2 p3 r3 =>
          simp only [hrec] at h
          injection h with h1 h2 h3
          subst h3
          obtain ⟨hxs, hp1⟩ := slash_ok_inv hs
          have hr2 : ∃ c2 t2, r2 = c2 :: t2 ∧ cellOf c2 = none ∧ isDigitChar c2 = false := by
            cases m with
            | zero =>
              simp only [boardsSep] at hrec
              injection hrec with g1 g2 g3
              exact ⟨c, t, g3, hc, hd⟩
            | succ k =>
              obtain ⟨t2, ht2⟩ := boardsSep_head hrec
              exact ⟨'/', t2, ht2, by decide, by decide⟩
          obtain ⟨c2, t2, hr2eq, hc2, hd2⟩ := hr2
          subst hr2eq
          subst hp1
          have hrowext := row_ext s hrow hc2 hd2
          have hrecext := ih hrec
          have hsx : slash ('/' :: (r1 ++ s)) pos = .ok () (pos + 1) (r1 ++ s) := by
            simp [slash]
          simp only [List.cons_append] at hrecext
          rw [hxs]
          simp only [List.cons_append, boardsSep, hsx, hrowext, hrecext, h1, h2]
        | err e => simp only [hrec] at h; cases h
        | panicked => simp only [hrec] at h; cases h
      | err e => simp only [hrow] at h; cases h
      | panicked => simp only [hrow] at h; cases h
    | err e => simp only [boardsSep, hs] at h; cases h
    | panicked => simp only [boardsSep, hs] at h; cases h

theorem boards_ok_inv {xs : List Char} {pos p : Nat}
    {bs : List (List Square)} {r : List Char}
    (h : boards xs pos = .ok bs p r) :
    bs.length = 9 ∧ ∀ b ∈ bs, b.length = 9 := by
  unfold boards at h
  cases hrow : row xs pos with
  | ok b p1 r1 =>
    simp only [hrow] at h
    cases hrec : boardsSep 8 r1 p1 with
    | ok bs2 p2 r2 =>
      simp only [hrec] at h
      injection h with h1 h2 h3
      obtain ⟨hlen, hall⟩ := boardsSep_ok_inv hrec
      rw [← h1]
      refine ⟨by simp [hlen], ?_⟩
      intro b2 hb2
      rcases List.mem_cons.mp hb2 with hb2 | hb2
      · rw [hb2]
        exact row_ok_length hrow
      · exact hall b2 hb2
    | err e => simp only [hrec] at h; cases h
    | panicked => simp only [hrec] at h; cases h
  | err e => simp only [hrow] at h; cases h
  | panicked => simp only [hrow] at h; cases h

theorem boards_suffix {xs : List Char} {pos p : Nat}
    {bs : List (List Square)} {r : List Char}
    (h : boards xs pos = .ok bs p r) : ∃ pre, xs = pre ++ r := by
  unfold boards at h
  cases hrow : row xs pos with
  | ok b p1 r1 =>
    simp only [hrow] at h
    cases hrec : boardsSep 8 r1 p1 with
    | ok bs2 p2 r2 =>
      simp only [hrec] at h
      injection h with h1 h2 h3
      obtain ⟨pre1, hpre1⟩ := row_suffix hrow
      obtain ⟨pre2, hpre2⟩ := boardsSep_suffix hrec
      exact ⟨pre1 ++ pre2, by rw [hpre1, hpre2, h3]; simp⟩
    | err e => simp only [hrec] at h; cases h
    | panicked => simp only [hrec] at h; cases h
  | err e => simp only [hrow] at h; cases h
  | panicked => simp only [hrow] at h; cases h

theorem boards_ext {xs : List Char} {pos p : Nat}
    {bs : List (List Square)} {c : Char} {t : List Char} (s : List Char)
    (h : boards xs pos = .ok bs p (c :: t))
    (hc : cellOf c = none) (hd : isDigitChar c = false) :
    boards (xs ++ s) pos = .ok bs p ((c :: t) ++ s) := by
  unfold boards at h ⊢
  cases hrow : row xs pos with
  | ok b p1 r1 =>
    simp only [hrow] at h
    cases hrec : boardsSep 8 r1 p1 with
    | ok bs2 p2 r2 =>
      simp only [hrec] at h
      injection h with h1 h2 h3
      subst h3
      have hr1 : ∃ c2 t2, r1 = c2 :: t2 ∧ cellOf c2 = none ∧ isDigitChar c2 = false := by
        obtain ⟨t2, ht2⟩ := boardsSep_head hrec
        exact ⟨'/', t2, ht2, by decide, by decide⟩
      obtain ⟨c2, t2, hr1eq, hc2, hd2⟩ := hr1
      subst hr1eq
      have hrowext := row_ext s hrow hc2 hd2
      have hrecext := boardsSep_ext s hrec hc hd
      rw [hrowext]
      simp only [List.cons_append] at hrecext
      simp only [List.cons_append, hrecext, h1, h2]
    | err e => simp only [hrec] at h; cases h
    | panicked => simp only [hrec] at h; cases h
  | err e => simp only [hrow] at h; cases h
  | panicked => simp only [hrow] at h; cases h


/-! ## The `active_brd` parser -/

theorem fileVal_le_eight {c : Char} (h : isFileChar c = true) : fileVal c ≤ 8 := by
  simp only [isFileChar, Bool.and_eq_true, decide_eq_true_eq] at h
  simp only [fileVal]
  omega

theorem active_brd_ok_inv {xs : List Char} {pos a p : Nat} {r : List Char}
    (h : active_brd xs pos = .ok a p r) :
    ∃ d, xs = d :: '/' :: r ∧ isDigitChar d = true ∧ a = digitVal d ∧
      p = pos + 2 ∧ a ≤ 9 := by
  unfold active_brd at h
  cases hd : digit xs pos with
  | ok n p1 r1 =>
    simp only [hd] at h
    cases hs : slash r1 p1 with
    | ok u p2 r2 =>
      simp only [hs] at h
      injection h with h1 h2 h3
      obtain ⟨d, hxs, hdd, hn, hp1⟩ := digit_ok_inv hd
      obtain ⟨hr1, hp2⟩ := slash_ok_inv hs
      refine ⟨d, ?_, hdd, by rw [← h1, hn], by omega, ?_⟩
      · rw [hxs, hr1, h3]
      · rw [← h1, hn]
        exact digitVal_le_nine hdd
    | err e => simp only [hs] at h; cases h
    | panicked => simp only [hs] at h; cases h
  | err e => simp only [hd] at h; cases h
  | panicked => simp only [hd] at h; cases h

theorem active_brd_ext {xs : List Char} {pos a p : Nat} {r : List Char} (s : List Char)
    (h : active_brd xs pos = .ok a p r) :
    active_brd (xs ++ s) pos = .ok a p (r ++ s) := by
  obtain ⟨d, hxs, hdd, ha, hp, _⟩ := active_brd_ok_inv h
  subst hxs
  simp only [List.cons_append, active_brd, digit, hdd, if_true, slash, if_pos rfl]
  rw [ha, hp]

/-! ## The `last_move` parser -/

theorem last_move_nil (pos : Nat) : last_move [] pos = .ok none pos [] := by
  simp [last_move, slash]

theorem last_move_some_inv {xs : List Char} {pos p : Nat} {mv : Move} {r : List Char}
    (h : last_move xs pos = .ok (some mv) p r) :
    ∃ c d, isFileChar c = true ∧ isDigitChar d = true ∧
      mv = ⟨fileVal c, digitVal d⟩ ∧ fileVal c ≤ 8 ∧ digitVal d ≤ 8 ∧
      ((xs = '/' :: c :: d :: r ∧ p = pos + 3) ∨ (xs = c :: d :: r ∧ p = pos + 2)) := by
  unfold last_move at h
  cases hs : slash xs pos with
  | ok u p1 r1 =>
    simp only [hs] at h
    cases r1 with
    | nil => injection h with h1; cases h1
    | cons c r2 =>
      simp only at h
      by_cases hf : isFileChar c = true
      · rw [if_pos hf] at h
        cases hd2 : digit r2 (p1 + 1) with
        | ok idx p3 r3 =>
          simp only [hd2] at h
          cases hm : Move.new (fileVal c) idx with
          | ok mv2 =>
            simp only [hm] at h
            injection h with h1 h2 h3
            injection h1 with h1
            obtain ⟨hmv2, hf8, hi8⟩ := Move.new_ok_inv hm
            obtain ⟨d, hr2eq, hdd, hidx, hp3⟩ := digit_ok_inv hd2
            obtain ⟨hxs, hp1⟩ := slash_ok_inv hs
            refine ⟨c, d, hf, hdd, by rw [← h1, hmv2, hidx], hf8, by omega,
              .inl ⟨?_, by omega⟩⟩
            rw [hxs, hr2eq, h3]
          | error e => simp only [hm] at h; cases h
        | err e => simp only [hd2] at h; injection h with h1; cases h1
        | panicked => simp only [hd2] at h; injection h with h1; cases h1
      · rw [if_neg hf] at h
        injection h with h1
        cases h1
  | err e =>
    simp only [hs] at h
    cases hx : xs with
    | nil => rw [hx] at h; injection h with h1; cases h1
    | cons c r2 =>
      rw [hx] at h
      simp only at h
      by_cases hf : isFileChar c = true
      · rw [if_pos hf] at h
        cases hd2 : digit r2 (pos + 1) with
        | ok idx p3 r3 =>
          simp only [hd2] at h
          cases hm : Move.new (fileVal c) idx with
          | ok mv2 =>
            simp only [hm] at h
            injection h with h1 h2 h3
            injection h1 with h1
            obtain ⟨hmv2, hf8, hi8⟩ := Move.new_ok_inv hm
            obtain ⟨d, hr2eq, hdd, hidx, hp3⟩ := digit_ok_inv hd2
            refine ⟨c, d, hf, hdd, by rw [← h1, hmv2, hidx], hf8, by omega,
              .inr ⟨?_, by omega⟩⟩
            rw [hr2eq, h3]
          | error e2 => simp only [hm] at h; cases h
        | err e2 => simp only [hd2] at h; injection h with h1; cases h1
        | panicked => simp only [hd2] at h; injection h with h1; cases h1
      · rw [if_neg hf] at h
        injection h with h1
        cases h1
  | panicked =>
    simp only [hs] at h
    cases hx : xs with
    | nil => rw [hx] at h; injection h with h1; cases h1
    | cons c r2 =>
      rw [hx] at h
      simp only at h
      by_cases hf : isFileChar c = true
      · rw [if_pos hf] at h
        cases hd2 : digit r2 (pos + 1) with
        | ok idx p3 r3 =>
          simp only [hd2] at h
          cases hm : Move.new (fileVal c) idx with
          | ok mv2 =>
            simp only [hm] at h
            injection h with h1 h2 h3
            injection h1 with h1
            obtain ⟨hmv2, hf8, hi8⟩ := Move.new_ok_inv hm
            obtain ⟨d, hr2eq, hdd, hidx, hp3⟩ := digit_ok_inv hd2
            refine ⟨c, d, hf, hdd, by rw [← h1, hmv2, hidx], hf8, by omega,
              .inr ⟨?_, by omega⟩⟩
            rw [hr2eq, h3]
          | error e2 => simp only [hm] at h; cases h
        | err e2 => simp only [hd2] at h; injection h with h1; cases h1
        | panicked => simp only [hd2] at h; injection h with h1; cases h1
      · rw [if_neg hf] at h
        injection h with h1
        cases h1

theorem last_move_eval_slash {c d : Char} (rest : List Char) (pos : Nat)
    (hf : isFileChar c = true) (hd : isDigitChar d = true) (h8 : digitVal d ≤ 8) :
    last_move ('/' :: c :: d :: rest) pos
      = .ok (some ⟨fileVal c, digitVal d⟩) (pos + 3) rest := by
  have hf8 := fileVal_le_eight hf
  simp only [last_move, slash, if_pos rfl, hf, if_true, digit, hd,
    Move.new_ok_of_le hf8 h8]

theorem last_move_eval_noslash {c d : Char} (rest : List Char) (pos : Nat)
    (hf : isFileChar c = true) (hd : isDigitChar d = true) (h8 : digitVal d ≤ 8) :
    last_move (c :: d :: rest) pos
      = .ok (some ⟨fileVal c, digitVal d⟩) (pos + 2) rest := by
  have hf8 := fileVal_le_eight hf
  have hns := ne_slash_of_file hf
  simp only [last_move, slash, if_neg hns, hf, if_true, digit, hd,
    Move.new_ok_of_le hf8 h8]

theorem last_move_ext {xs : List Char} {pos p : Nat} {mv : Move} (s : List Char)
    (h : last_move xs pos = .ok (some mv) p []) :
    last_move (xs ++ s) pos = .ok (some mv) p s := by
  obtain ⟨c, d, hf, hd, hmv, hf8, hd8, hsh⟩ := last_move_some_inv h
  rcases hsh with ⟨hxs, hp⟩ | ⟨hxs, hp⟩
  · subst hxs
    simp only [List.cons_append, List.nil_append]
    rw [last_move_eval_slash s pos hf hd hd8, hmv, hp]
  · subst hxs
    simp only [List.cons_append, List.nil_append]
    rw [last_move_eval_noslash s pos hf hd hd8, hmv, hp]

/-! ## `_parse` and `parse` -/

theorem parse_ok_inv {xs : List Char} {st : State} (h : parse xs = .ok st) :
    ∃ a p1 r1 bs p2 r2 lm p3,
      active_brd xs 0 = .ok a p1 r1 ∧ boards r1 p1 = .ok bs p2 r2 ∧
      last_move r2 p2 = .ok lm p3 [] ∧ st = ⟨a, bs.flatten, lm⟩ := by
  unfold parse at h
  cases hp : _parse xs with
  | ok st2 pp rr =>
    simp only [hp] at h
    injection h with hst
    unfold _parse at hp
    cases ha : active_brd xs 0 with
    | ok a p1 r1 =>
      simp only [ha] at hp
      cases hb : boards r1 p1 with
      | ok bs p2 r2 =>
        simp only [hb] at hp
        cases hl : last_move r2 p2 with
        | ok lm p3 r3 =>
          simp only [hl] at hp
          cases r3 with
          | nil =>
            simp only at hp
            split_ifs at hp with hlen
            injection hp with g1 g2 g3
            exact ⟨a, p1, r1, bs, p2, r2, lm, p3, rfl, hb, hl, by rw [← hst, ← g1]⟩
          | cons c t => simp only at hp; cases hp
        | err e => simp only [hl] at hp; cases hp
        | panicked => simp only [hl] at hp; cases hp
      | err e => simp only [hb] at hp; cases hp
      | panicked => simp only [hb] at hp; cases hp
    | err e => simp only [ha] at hp; cases hp
    | panicked => simp only [ha] at hp; cases hp
  | err e => simp only [hp] at h; cases h
  | panicked => simp only [hp] at h; cases h

theorem parse_of_pipeline {xs : List Char} {a p1 : Nat} {r1 : List Char}
    {bs : List (List Square)} {p2 : Nat} {r2 : List Char} {lm : Option Move} {p3 : Nat}
    (h1 : active_brd xs 0 = .ok a p1 r1) (h2 : boards r1 p1 = .ok bs p2 r2)
    (h3 : last_move r2 p2 = .ok lm p3 []) :
    parse xs = .ok ⟨a, bs.flatten, lm⟩ := by
  obtain ⟨hb9, hball⟩ := boards_ok_inv h2
  unfold parse _parse
  simp only [h1, h2, h3]
  rw [if_pos (flatten_length_81 hb9 hball)]

theorem parse_end_err {xs : List Char} {a p1 : Nat} {r1 : List Char}
    {bs : List (List Square)} {p2 : Nat} {r2 : List Char} {lm : Option Move} {p3 : Nat}
    {c : Char} {t : List Char}
    (h1 : active_brd xs 0 = .ok a p1 r1) (h2 : boards r1 p1 = .ok bs p2 r2)
    (h3 : last_move r2 p2 = .ok lm p3 (c :: t)) :
    parse xs = .err [((p3, p3 + 1), reasonToString (.expectedFound (some c)))] := by
  unfold parse _parse
  simp only [h1, h2, h3]


/-! ## Claim theorems -/

/-- C1 (code_bug evidence): the claim says `parse` never panics and that an
out-of-range move coordinate is surfaced as a diagnostic.  The source instead
calls `.unwrap()` on `Move::new`, so the in-grammar input
`"9/9_/9_/9_/9_/9_/9_/9_/9_/9_/a9"` (rank digit 9, which `Move::new` rejects
as `InvalidColumn`) makes `parse` panic instead of returning `Err` — even
though the module doc itself advertises moves like `g9`. -/
theorem claim_C1_rank_digit_nine_panics :
    parse ("9/9_/9_/9_/9_/9_/9_/9_/9_/9_/a9".toList) = .panicked ∧
    Move.new (fileVal 'a') (digitVal '9') = .error .InvalidColumn := by
  exact ⟨by decide, rfl⟩

/-- C2 (counterexample): the claim says an input ending in `"a1"` yields
`last_move` with column 0 and row 1.  The code passes the file letter as
`Move::new`'s *row* argument and the digit as its *column* argument, so the
parsed move is `row = 0, column = 1`, refuting the claim. -/
theorem claim_C2_counterexample :
    parse ("9/9_/9_/9_/9_/9_/9_/9_/9_/9_a1".toList)
      = .ok ⟨9, List.replicate 81 .Empty, some ⟨0, 1⟩⟩ ∧
    ¬ ((Move.mk 0 1).col = 0 ∧ (Move.mk 0 1).row = 1) := by
  exact ⟨by decide, by decide⟩

/-- C2 (amended): for every successful parse whose `last_move` is present,
the input ends with a file letter and a rank digit, the file letter is
converted to the 0-based *row* index of the `Move` and the rank digit is
used as the *column* index (and is at most 8); e.g. `"a1"` yields
`row = 0, column = 1`. -/
theorem claim_C2_file_is_row_digit_is_column :
    ∀ (input : List Char) (st : State) (mv : Move),
      parse input = .ok st → st.last_move = some mv →
      ∃ pre c d, input = pre ++ [c, d] ∧ isFileChar c = true ∧
        isDigitChar d = true ∧ mv.row = fileVal c ∧ mv.column = digitVal d ∧
        digitVal d ≤ 8 := by
  intro input st mv h hsome
  obtain ⟨a, p1, r1, bs, p2, r2, lm, p3, ha, hb, hl, hst⟩ := parse_ok_inv h
  have hlm : lm = some mv := by rw [hst] at hsome; exact hsome
  rw [hlm] at hl
  obtain ⟨c, d, hf, hd, hmveq, hf8, hd8, hsh⟩ := last_move_some_inv hl
  obtain ⟨d0, hxs, _, _, _, _⟩ := active_brd_ok_inv ha
  obtain ⟨pre2, hpre2⟩ := boards_suffix hb
  rcases hsh with ⟨hr2, _⟩ | ⟨hr2, _⟩
  · refine ⟨d0 :: '/' :: (pre2 ++ ['/']), c, d, ?_, hf, hd,
      by rw [hmveq], by rw [hmveq], hd8⟩
    rw [hxs, hpre2, hr2]
    simp
  · refine ⟨d0 :: '/' :: pre2, c, d, ?_, hf, hd,
      by rw [hmveq], by rw [hmveq], hd8⟩
    rw [hxs, hpre2, hr2]
    simp

/-- C2 amended, witness: the all-empty input with trailing `"a1"`. -/
theorem claim_C2_file_is_row_digit_is_column_witness :
    ∃ pre c d, "9/9_/9_/9_/9_/9_/9_/9_/9_/9_a1".toList = pre ++ [c, d] ∧
      isFileChar c = true ∧ isDigitChar d = true ∧
      (Move.mk 0 1).row = fileVal c ∧ (Move.mk 0 1).column = digitVal d ∧
      digitVal d ≤ 8 :=
  claim_C2_file_is_row_digit_is_column ("9/9_/9_/9_/9_/9_/9_/9_/9_/9_a1".toList)
    ⟨9, List.replicate 81 .Empty, some ⟨0, 1⟩⟩ ⟨0, 1⟩ (by decide) (by decide)

/-- C3: whenever `parse` returns `Ok`, the state satisfies all invariants:
`squares` has exactly 81 entries arising as 9 boards of exactly 9 cells each
in input order, `active` is in [0,9], and a present `last_move` has row and
column in [0,8]. -/
theorem claim_C3_state_invariants :
    ∀ (input : List Char) (st : State), parse input = .ok st →
      st.squares.length = 81 ∧
      (∃ bs : List (List Square), bs.length = 9 ∧ (∀ b ∈ bs, b.length = 9) ∧
        st.squares = bs.flatten) ∧
      st.active ≤ 9 ∧
      (∀ mv, st.last_move = some mv → mv.row ≤ 8 ∧ mv.column ≤ 8) := by
  intro input st h
  obtain ⟨a, p1, r1, bs, p2, r2, lm, p3, ha, hb, hl, hst⟩ := parse_ok_inv h
  obtain ⟨hb9, hball⟩ := boards_ok_inv hb
  obtain ⟨d0, _, _, _, _, ha9⟩ := active_brd_ok_inv ha
  subst hst
  refine ⟨flatten_length_81 hb9 hball, ⟨bs, hb9, hball, rfl⟩, ha9, ?_⟩
  intro mv hmv
  have hlm : lm = some mv := hmv
  rw [hlm] at hl
  obtain ⟨c, d, hf, hd, hmveq, hf8, hd8, _⟩ := last_move_some_inv hl
  rw [hmveq]
  exact ⟨hf8, hd8⟩

/-- C3 witness: concrete invariant check on the all-empty input with move. -/
theorem claim_C3_state_invariants_witness :
    (State.mk 9 (List.replicate 81 .Empty) (some ⟨0, 1⟩)).squares.length = 81 ∧
    (∃ bs : List (List Square), bs.length = 9 ∧ (∀ b ∈ bs, b.length = 9) ∧
      (State.mk 9 (List.replicate 81 .Empty) (some ⟨0, 1⟩)).squares = bs.flatten) ∧
    (State.mk 9 (List.replicate 81 .Empty) (some ⟨0, 1⟩)).active ≤ 9 ∧
    (∀ mv, (State.mk 9 (List.replicate 81 .Empty) (some ⟨0, 1⟩)).last_move = some mv →
      mv.row ≤ 8 ∧ mv.column ≤ 8) :=
  claim_C3_state_invariants ("9/9_/9_/9_/9_/9_/9_/9_/9_/9_a1".toList)
    ⟨9, List.replicate 81 .Empty, some ⟨0, 1⟩⟩ (by decide)

/-- C4: a board whose runs expand to a cell count other than 9 is rejected
by the `row` parser with a `Rich::custom` diagnostic stating the actual
count and spanning the consumed board (the wrapper reports the inclusive
pair `(start, stop)` where `stop` is chumsky's exclusive end, so the
reported span covers the offending board); end to end, `"8X"` as board 1
yields exactly the diagnostic `"Board must have exactly 9 squares, got: 8"`
on span `(2, 4)`, covering the token at offsets 2–3. -/
theorem claim_C4_board_count_diagnostic :
    (∀ (xs : List Char) (pos : Nat) (first : List Square) (p1 : Nat)
       (r1 : List Char) (rest : List (List Square)) (p2 : Nat) (r2 : List Char),
       run xs pos = .ok first p1 r1 →
       runRepeated r1.length r1 p1 = (rest, p2, r2) →
       ((first :: rest).flatten).length ≠ 9 →
       row xs pos = .err ⟨⟨pos, p2⟩,
         .custom ("Board must have exactly 9 squares, got: " ++
           toString ((first :: rest).flatten).length)⟩) ∧
    parse ("0/8X/9_/9_/9_/9_/9_/9_/9_/9_".toList)
      = .err [((2, 4), "Board must have exactly 9 squares, got: 8")] := by
  refine ⟨?_, by decide⟩
  intro xs pos first p1 r1 rest p2 r2 h1 h2 h3
  exact row_count_err h1 h2 h3

/-- C4 witness: the lone board `"8X"` (8 cells). -/
theorem claim_C4_board_count_diagnostic_witness :
    row ("8X".toList) 0
      = .err ⟨⟨0, 2⟩, .custom "Board must have exactly 9 squares, got: 8"⟩ :=
  (claim_C4_board_count_diagnostic.1 ("8X".toList) 0 (List.replicate 8 .X) 2 [] [] 2 []
    (by decide) (by decide) (by decide)).trans (by decide)

/-- C5: run-length expansion is faithful: a digit+cell run contributes
exactly `digit` consecutive copies of the cell, a bare cell contributes one
cell, `"9X"` decodes to 9 consecutive X squares, and `"3X2O4_"` decodes to
X,X,X,O,O,_,_,_,_. -/
theorem claim_C5_run_length_faithful :
    (∀ (d c : Char) (sq : Square) (rest : List Char) (pos : Nat),
       isDigitChar d = true → cellOf c = some sq →
       run (d :: c :: rest) pos = .ok (List.replicate (digitVal d) sq) (pos + 2) rest) ∧
    (∀ (c : Char) (sq : Square) (rest : List Char) (pos : Nat),
       cellOf c = some sq → run (c :: rest) pos = .ok [sq] (pos + 1) rest) ∧
    row ("9X".toList) 0 = .ok (List.replicate 9 .X) 2 [] ∧
    row ("3X2O4_".toList) 0
      = .ok [.X, .X, .X, .O, .O, .Empty, .Empty, .Empty, .Empty] 6 [] := by
  refine ⟨?_, ?_, by decide, by decide⟩
  · intro d c sq rest pos hd hc
    exact run_replicate rest pos hd hc
  · intro c sq rest pos hc
    exact run_bare rest pos hc

/-- C5 witness: `"3X"` as a run yields three X's, a bare `"O"` yields one O. -/
theorem claim_C5_run_length_faithful_witness :
    run ('3' :: 'X' :: []) 0 = .ok (List.replicate (digitVal '3') .X) (0 + 2) [] ∧
    run ('O' :: []) 5 = .ok [.O] (5 + 1) [] :=
  ⟨claim_C5_run_length_faithful.1 '3' 'X' .X [] 0 (by decide) (by decide),
   claim_C5_run_length_faithful.2.1 'O' .O [] 5 (by decide)⟩

/-- C6 (code_bug evidence): the claim (and the module doc comment, "runs
must be 1..=9") says a run-length token with count digit '0' is not a valid
run, so `"0X"` at a board position must be rejected.  The code's `digit` is
`one_of('0'..='9')`, so `"0X"` is accepted and expands to zero cells: the
board `"0X9_"` decodes to 9 cells and the whole input parses `Ok`. -/
theorem claim_C6_zero_run_accepted :
    parse ("0/0X9_/9_/9_/9_/9_/9_/9_/9_/9_".toList)
      = .ok ⟨0, List.replicate 81 .Empty, none⟩ ∧
    run ("0X".toList) 0 = .ok [] 2 [] := by
  exact ⟨by decide, by decide⟩

/-- C7: `Move::new(row, col)` returns `Ok` exactly when both coordinates are
in [0,8], returns `InvalidRow` for an out-of-range row and `InvalidColumn`
for an out-of-range column (row checked first), and the `row()`/`col()`
accessors return the constructed values unchanged. -/
theorem claim_C7_move_new :
    ∀ r c : Nat,
      ((∃ m, Move.new r c = .ok m) ↔ (r ≤ 8 ∧ c ≤ 8)) ∧
      (8 < r → Move.new r c = .error .InvalidRow) ∧
      (r ≤ 8 → 8 < c → Move.new r c = .error .InvalidColumn) ∧
      (∀ m, Move.new r c = .ok m → m.rowAcc = r ∧ m.col = c) := by
  intro r c
  refine ⟨⟨?_, ?_⟩, ?_, ?_, ?_⟩
  · rintro ⟨m, hm⟩
    exact (Move.new_ok_inv hm).2
  · rintro ⟨hr, hc⟩
    exact ⟨⟨r, c⟩, Move.new_ok_of_le hr hc⟩
  · intro hr
    unfold Move.new
    rw [if_pos (by omega)]
  · intro hr hc
    unfold Move.new
    rw [if_neg (by omega), if_pos (by omega)]
  · intro m hm
    obtain ⟨hmeq, _, _⟩ := Move.new_ok_inv hm
    rw [hmeq]
    exact ⟨rfl, rfl⟩

/-- C7 witness: concrete instances of each branch. -/
theorem claim_C7_move_new_witness :
    Move.new 9 0 = .error .InvalidRow ∧
    Move.new 0 9 = .error .InvalidColumn ∧
    ((Move.mk 3 4).rowAcc = 3 ∧ (Move.mk 3 4).col = 4) :=
  ⟨(claim_C7_move_new 9 0).2.1 (by omega),
   (claim_C7_move_new 0 9).2.2.1 (by omega) (by omega),
   (claim_C7_move_new 3 4).2.2.2 ⟨3, 4⟩ rfl⟩

/-- C8: when the nine boards consume the whole input (the trailing move
token is omitted), `parse` succeeds with `last_move = none`; in particular
the all-empty input parses to `active = 9`, 81 `Empty` squares and
`last_move = none`. -/
theorem claim_C8_omitted_move_none :
    (∀ (xs : List Char) (a p1 : Nat) (r1 : List Char)
       (bs : List (List Square)) (p2 : Nat),
       active_brd xs 0 = .ok a p1 r1 → boards r1 p1 = .ok bs p2 [] →
       parse xs = .ok ⟨a, bs.flatten, none⟩) ∧
    parse ("9/9_/9_/9_/9_/9_/9_/9_/9_/9_".toList)
      = .ok ⟨9, List.replicate 81 .Empty, none⟩ := by
  refine ⟨?_, by decide⟩
  intro xs a p1 r1 bs p2 h1 h2
  exact parse_of_pipeline h1 h2 (last_move_nil p2)

/-- C8 witness: the all-empty input, decomposed through the pipeline. -/
theorem claim_C8_omitted_move_none_witness :
    parse ("9/9_/9_/9_/9_/9_/9_/9_/9_/9_".toList)
      = .ok ⟨9, (List.replicate 9 (List.replicate 9 Square.Empty)).flatten, none⟩ :=
  claim_C8_omitted_move_none.1 ("9/9_/9_/9_/9_/9_/9_/9_/9_/9_".toList) 9 2
    ("9_/9_/9_/9_/9_/9_/9_/9_/9_".toList)
    (List.replicate 9 (List.replicate 9 Square.Empty)) 28 (by decide) (by decide)

/-- C9 (counterexample): the claim demands `Err` for *every* string formed
by appending extra characters after a fully valid 9-board string with or
without its move token.  Appending `"a1"` after a fully valid move-less
string instead parses `Ok`: the grammar lets a move token directly follow
the ninth board. -/
theorem claim_C9_counterexample :
    parse ("9/9_/9_/9_/9_/9_/9_/9_/9_/9_".toList ++ "a1".toList)
      = .ok ⟨9, List.replicate 81 .Empty, some ⟨0, 1⟩⟩ := by
  decide

/-- C9 (amended): `parse` requires end-of-input immediately after the move
token: appending extra characters after a fully valid string *that includes
its move token* always yields `Err` with a non-empty diagnostics list. -/
theorem claim_C9_trailing_after_move_err :
    ∀ (input s : List Char) (st : State) (mv : Move),
      parse input = .ok st → st.last_move = some mv → s ≠ [] →
      isFailure (parse (input ++ s)) = true := by
  intro input s st mv h hsome hne
  obtain ⟨a, p1, r1, bs, p2, r2, lm, p3, ha, hb, hl, hst⟩ := parse_ok_inv h
  have hlm : lm = some mv := by rw [hst] at hsome; exact hsome
  rw [hlm] at hl
  obtain ⟨c, d, hf, hd, hmveq, hf8, hd8, hsh⟩ := last_move_some_inv hl
  have hextA := active_brd_ext s ha
  have hr2 : ∃ c0 t0, r2 = c0 :: t0 ∧ cellOf c0 = none ∧ isDigitChar c0 = false := by
    rcases hsh with ⟨hxs, _⟩ | ⟨hxs, _⟩
    · exact ⟨'/', c :: d :: [], hxs, by decide, by decide⟩
    · exact ⟨c, d :: [], hxs, cellOf_eq_none_of_file hf, not_digit_of_file hf⟩
  obtain ⟨c0, t0, hr2eq, hc0, hd0⟩ := hr2
  rw [hr2eq] at hb hl
  have hextB := boards_ext s hb hc0 hd0
  have hextL := last_move_ext s hl
  cases s with
  | nil => exact absurd rfl hne
  | cons c1 s1 =>
    rw [parse_end_err hextA hextB hextL]
    rfl

/-- C9 amended, witness: `'Z'` appended after a valid string with move. -/
theorem claim_C9_trailing_after_move_err_witness :
    isFailure (parse ("9/9_/9_/9_/9_/9_/9_/9_/9_/9_a1".toList ++ ['Z'])) = true :=
  claim_C9_trailing_after_move_err ("9/9_/9_/9_/9_/9_/9_/9_/9_/9_a1".toList) ['Z']
    ⟨9, List.replicate 81 .Empty, some ⟨0, 1⟩⟩ ⟨0, 1⟩ (by decide) (by decide)
    (by decide)

/-- Helper for C10: on the remaining input `['/']` the `last_move` parser
consumes the slash, fails to find a file letter at end-of-input, and the
outer `or_not` rewinds to before the slash, yielding `none` with the `'/'`
still unconsumed. -/
theorem last_move_dangling_slash (pos : Nat) :
    last_move ['/'] pos = .ok none pos ['/'] := by
  simp [last_move, slash]

/-- C10: every input consisting of a valid active digit and nine valid
boards followed by a single dangling `'/'` with no move token after it is
rejected: the inner move parse fails, `or_not` rewinds to before the slash,
and `end()` then fails on the leftover `'/'`, so `parse` returns `Err` (at
the slash's offset) rather than `Ok` with `last_move = none`; concretely,
the all-empty such input fails at offset 28 (the generic-message rendering
is the embedding's abstraction of chumsky's found/expected formatting). -/
theorem claim_C10_dangling_slash_rejected :
    (∀ (xs : List Char) (a p1 : Nat) (r1 : List Char)
       (bs : List (List Square)) (p2 : Nat),
       active_brd xs 0 = .ok a p1 r1 → boards r1 p1 = .ok bs p2 ['/'] →
       parse xs = .err [((p2, p2 + 1), reasonToString (.expectedFound (some '/')))]) ∧
    parse ("9/9_/9_/9_/9_/9_/9_/9_/9_/9_/".toList)
      = .err [((28, 29), reasonToString (.expectedFound (some '/')))] := by
  refine ⟨?_, by decide⟩
  intro xs a p1 r1 bs p2 h1 h2
  exact parse_end_err h1 h2 (last_move_dangling_slash p2)

/-- C10 witness: the all-empty boards instance, decomposed through the
pipeline. -/
theorem claim_C10_dangling_slash_rejected_witness :
    parse ("9/9_/9_/9_/9_/9_/9_/9_/9_/9_/".toList)
      = .err [((28, 28 + 1), reasonToString (.expectedFound (some '/')))] :=
  claim_C10_dangling_slash_rejected.1 ("9/9_/9_/9_/9_/9_/9_/9_/9_/9_/".toList) 9 2
    ("9_/9_/9_/9_/9_/9_/9_/9_/9_/".toList)
    (List.replicate 9 (List.replicate 9 Square.Empty)) 28 (by decide) (by decide)

end UTT
